import Mathlib

/-!
Shallow embedding of `karateclub/graph_embedding/netlsd.py` (class `NetLSD`).

Modelling conventions:
* numpy float64 arrays of reals are modelled as `List ℝ` (real numbers, not
  floating point);
* a Python call that raises (`ValueError`, `IndexError`, broadcast errors,
  `AttributeError`) is modelled by `Option`/`Except` with value `none`/`.error`;
* the sparse normalized-Laplacian matrix of a graph is represented, where the
  eigensolver consumes it, by its full eigenvalue spectrum sorted ascending
  (a normalized Laplacian is positive semidefinite with spectrum in `[0, 2]`,
  so ascending algebraic order coincides with ascending magnitude order);
* `scipy.sparse.linalg.eigsh` is an external collaborator, modelled from its
  documented contract (see `eigsh_SM`, `eigsh_LM`).
-/

namespace KarateClub

/-- State of a `NetLSD` estimator object: the four constructor-stored
configuration attributes (`__init__`, netlsd.py lines 19-23) plus `_embedding`,
which is `none` while the Python attribute `self._embedding` does not exist yet
(it is first assigned by `fit`). -/
structure NetLSD where
  scale_min : ℝ
  scale_max : ℝ
  scale_steps : ℤ
  approximations : ℤ
  _embedding : Option (List (List ℝ))

/-- Constructor `NetLSD.__init__` (netlsd.py lines 19-23): stores the four
arguments as attributes, performs no validation, and cannot fail.  The
`_embedding` attribute does not exist on a freshly constructed object. -/
def NetLSD.init (scale_min scale_max : ℝ) (scale_steps approximations : ℤ) :
    NetLSD :=
  { scale_min := scale_min
    scale_max := scale_max
    scale_steps := scale_steps
    approximations := approximations
    _embedding := none }

/-- Model of `numpy.linspace(start, stop, num)` (endpoint included):
entry `i` is `start + i * (stop - start) / (num - 1)` for `i < num`.
For `num = 1` numpy returns `[start]`, which the formula also yields here
because division by zero is zero in Lean; for `num = 0` the list is empty. -/
noncomputable def np_linspace (start stop : ℝ) (num : ℕ) : List ℝ :=
  (List.range num).map
    (fun i : ℕ => start + (i : ℝ) * (stop - start) / ((num : ℝ) - 1))

/-- Model of `numpy.logspace(start, stop, num)`:
`10 ** linspace(start, stop, num)` elementwise (real exponentiation). -/
noncomputable def np_logspace (start stop : ℝ) (num : ℕ) : List ℝ :=
  (np_linspace start stop num).map (fun x => (10 : ℝ) ^ x)

/-- `NetLSD._calculate_heat_kernel_trace` (netlsd.py lines 25-32):
`timescales = np.logspace(scale_min, scale_max, scale_steps)`;
`nodes = eivals.shape[0]` (the LENGTH of the eigenvalue array passed in, not
the node count of the graph); for each time scale `t` the entry is
`np.sum(np.exp(-t * eivals))`, and the whole vector is divided by `nodes`.
`np.logspace` raises `ValueError` for a negative `num`, modelled as `none`;
`num = 0` yields an empty grid. -/
noncomputable def calculate_heat_kernel_trace (m : NetLSD) (eivals : List ℝ) :
    Option (List ℝ) :=
  if m.scale_steps < 0 then none
  else
    some ((np_logspace m.scale_min m.scale_max m.scale_steps.toNat).map
      (fun t => ((eivals.map (fun l => Real.exp (-t * l))).sum) /
        (eivals.length : ℝ)))

/-- Python sequence-index normalization for a slice bound on an array of
length `n`: a negative bound `i` means `n + i` clamped below at `0`; a
non-negative bound is clamped above at `n`.  (The literal bound `0`, as
produced by `-nau + 1` when `nau = 1` in `_updown_linear_approx`, is
non-negative and therefore denotes absolute position `0`.) -/
def pyIdx (n : ℕ) (i : ℤ) : ℕ :=
  if i < 0 then (max 0 ((n : ℤ) + i)).toNat else min i.toNat n

/-- Model of a numpy slice assignment `arr[s:e] = vals` on a 1-d array:
the slice covers positions `pyIdx s .. pyIdx e` (empty when reversed) and the
assignment requires `vals` to have exactly the slice's length, otherwise numpy
raises a broadcast `ValueError`, modelled as `none`. -/
def np_setSlice (arr : List ℝ) (s e : ℤ) (vals : List ℝ) : Option (List ℝ) :=
  let s' := pyIdx arr.length s
  let e' := pyIdx arr.length e
  if vals.length = e' - s' then
    some (arr.take s' ++ vals ++ arr.drop (max s' e'))
  else none

/-- `NetLSD._updown_linear_approx` (netlsd.py lines 34-41):
`nal = len(eigvals_lower)`, `nau = len(eigvals_upper)`, `ret = np.zeros(nv)`;
`ret[:nal] = eigvals_lower`; `ret[-nau:] = eigvals_upper`;
`ret[nal-1:-nau+1] = np.linspace(eigvals_lower[-1], eigvals_upper[0],
nv-nal-nau+2)`.  `eigvals_lower[-1]`/`eigvals_upper[0]` raise `IndexError` on
an empty band, `np.linspace` raises for a negative count, and each slice
assignment raises when the value length does not match the slice length; all
modelled as `none`. -/
noncomputable def updown_linear_approx
    (eigvals_lower eigvals_upper : List ℝ) (nv : ℕ) : Option (List ℝ) :=
  let nal : ℤ := eigvals_lower.length
  let nau : ℤ := eigvals_upper.length
  let num : ℤ := (nv : ℤ) - nal - nau + 2
  match eigvals_lower.getLast?, eigvals_upper.head? with
  | some lo_last, some up_first =>
    if num < 0 then none
    else
      (np_setSlice (List.replicate nv 0) 0 nal eigvals_lower).bind fun r1 =>
      (np_setSlice r1 (-nau) (nv : ℤ) eigvals_upper).bind fun r2 =>
      np_setSlice r2 (nal - 1) (-nau + 1) (np_linspace lo_last up_first num.toNat)
  | _, _ => none

/-- Model of `scipy.sparse.linalg.eigsh(mat, k, which="SM",
return_eigenvectors=False)` on a positive-semidefinite matrix represented by
its full ascending eigenvalue spectrum.  Per the scipy contract it returns the
`k` smallest-magnitude eigenvalues and, with `return_eigenvectors=False` and
`which="SM"`, sorts them by decreasing absolute value — for a PSD matrix,
descending.  ARPACK requires `0 < k < n` and raises otherwise (`none`). -/
def eigsh_SM (fullSpectrum : List ℝ) (k : ℤ) : Option (List ℝ) :=
  if 0 < k ∧ k < (fullSpectrum.length : ℤ) then
    some ((fullSpectrum.take k.toNat).reverse)
  else none

/-- Model of `scipy.sparse.linalg.eigsh(mat, k, which="LM",
return_eigenvectors=False)` on a PSD matrix represented by its full ascending
spectrum: the `k` largest-magnitude eigenvalues sorted by increasing absolute
value — for a PSD matrix, ascending.  ARPACK requires `0 < k < n`. -/
def eigsh_LM (fullSpectrum : List ℝ) (k : ℤ) : Option (List ℝ) :=
  if 0 < k ∧ k < (fullSpectrum.length : ℤ) then
    some (fullSpectrum.drop (fullSpectrum.length - k.toNat))
  else none

/-- `NetLSD._calculate_eigenvalues` (netlsd.py lines 43-50), with the matrix
argument represented by its full ascending spectrum (`nv = mat.shape[0]` is
its length).  When `2 * approximations + 2 < nv`:
`lo_eivals = eigsh(mat, k, "SM", ...)[::-1]`,
`up_eivals = eigsh(mat, k, "LM", ...)`, then
`_updown_linear_approx(lo_eivals, up_eivals, nv)`.
Otherwise: `eigsh(mat, nv - 1, "SM", return_eigenvectors=False)`, returned
as-is (no `[::-1]`). -/
noncomputable def calculate_eigenvalues (m : NetLSD) (fullSpectrum : List ℝ) :
    Option (List ℝ) :=
  let nv := fullSpectrum.length
  if 2 * m.approximations + 2 < (nv : ℤ) then
    (eigsh_SM fullSpectrum m.approximations).bind fun sm_raw =>
    (eigsh_LM fullSpectrum m.approximations).bind fun up_eivals =>
    updown_linear_approx sm_raw.reverse up_eivals nv
  else
    eigsh_SM fullSpectrum ((nv : ℤ) - 1)

/-- `NetLSD._calculate_netlsd` (netlsd.py lines 53-67), spectral part: the
normalized Laplacian built at line 64 is represented by its full ascending
eigenvalue spectrum, which `_calculate_eigenvalues` consumes and
`_calculate_heat_kernel_trace` turns into the per-graph embedding.  (The
mutation of the input graph at line 63 is modelled separately by
`calculate_netlsd_graph_after`.) -/
noncomputable def calculate_netlsd (m : NetLSD) (fullSpectrum : List ℝ) :
    Option (List ℝ) :=
  (calculate_eigenvalues m fullSpectrum).bind (calculate_heat_kernel_trace m)

/-- `NetLSD.fit` (netlsd.py lines 69-76): computes `_calculate_netlsd` for
each graph in input order and assigns the list to `self._embedding`.  Each
graph is given by its Laplacian's full ascending spectrum; a per-graph failure
aborts the whole call (`none`), leaving no new state. -/
noncomputable def NetLSD.fit (m : NetLSD) (graphSpectra : List (List ℝ)) :
    Option NetLSD :=
  (graphSpectra.mapM (calculate_netlsd m)).map
    (fun embs => { m with _embedding := some embs })

/-- `NetLSD.get_embedding` (netlsd.py lines 79-85): returns
`np.array(self._embedding)`.  If `fit` has never run, the attribute
`self._embedding` does not exist and Python raises `AttributeError`, modelled
as an `Except.error`. -/
def NetLSD.get_embedding (m : NetLSD) : Except String (List (List ℝ)) :=
  match m._embedding with
  | none => .error "AttributeError: NetLSD object has no attribute _embedding"
  | some e => .ok e

/-- NetworkX graph as the pipeline sees it: a node count (nodes are
`0 .. n-1`) and a finite undirected edge set given by endpoint pairs. -/
structure NXGraph where
  number_of_nodes : ℕ
  edges : Finset (ℕ × ℕ)
deriving DecidableEq

/-- `networkx.selfloop_edges(graph)`: the edges whose endpoints coincide. -/
def selfloop_edges (g : NXGraph) : Finset (ℕ × ℕ) :=
  g.edges.filter (fun e => e.1 = e.2)

/-- `graph.remove_edges_from(es)`: removes the given edges from the graph
object itself (an in-place mutation in networkx). -/
def remove_edges_from (g : NXGraph) (es : Finset (ℕ × ℕ)) : NXGraph :=
  { g with edges := g.edges \ es }

/-- State of the CALLER's graph object after `_calculate_netlsd(graph)`
returns: line 63 executes
`graph.remove_edges_from(nx.selfloop_edges(graph))` on the caller's object,
and no later line of the function writes to the graph again. -/
def calculate_netlsd_graph_after (g : NXGraph) : NXGraph :=
  remove_edges_from g (selfloop_edges g)

/-- Normalized Laplacian of the complete graph on 3 nodes: every node has
degree 2, so the diagonal is `1` and every off-diagonal entry is
`-1/sqrt(2*2) = -1/2`. -/
noncomputable def K3_normalized_laplacian : Matrix (Fin 3) (Fin 3) ℝ :=
  Matrix.of fun i j => if i = j then 1 else -(1 / 2)

/-- Characteristic polynomial of the K3 normalized Laplacian: `det(x·I - L) =
x (x - 3/2)²`, so its eigenvalues are `0, 3/2, 3/2` as the spec states. -/
theorem K3_charpoly_eval (x : ℝ) :
    (x • (1 : Matrix (Fin 3) (Fin 3) ℝ) - K3_normalized_laplacian).det =
      x * (x - 3 / 2) ^ 2 := by
  simp [K3_normalized_laplacian, Matrix.det_fin_three, Matrix.one_apply]
  ring

/-- Helper: `exp(-3/2) < 1/4`, via `exp(3/2) = exp(1)·exp(1/2) > 2.71 · 1.5 > 4`. -/
theorem exp_neg_three_halves_lt_quarter : Real.exp (-(3 / 2)) < 1 / 4 := by
  have h1 : (2.7182818283 : ℝ) < Real.exp 1 := Real.exp_one_gt_d9
  have h2 : (1 / 2 : ℝ) + 1 ≤ Real.exp (1 / 2) := Real.add_one_le_exp _
  have h3 : Real.exp (3 / 2 : ℝ) = Real.exp 1 * Real.exp (1 / 2) := by
    rw [← Real.exp_add]; norm_num
  have h4 : (4 : ℝ) < Real.exp (3 / 2) := by
    rw [h3]
    nlinarith [Real.exp_pos (1 : ℝ), Real.exp_pos (1 / 2 : ℝ)]
  have h5 : Real.exp (-(3 / 2 : ℝ)) = (Real.exp (3 / 2))⁻¹ := by
    rw [← Real.exp_neg]
  rw [h5, inv_lt_comm₀ (by positivity) (by norm_num)]
  norm_num
  linarith

/-- C1 (counterexample).  The claim says each trace entry is the spectrum sum
of `exp(-t·λ)` divided by the NODE count `n`, also when the exact branch
returns `n-1` values.  For a 3-node graph with Laplacian spectrum
`[0, 3/2, 3/2]` (e.g. K3) and grid `[1.0]` (`scale_steps = 1`,
`scale_min = scale_max = 0`), the produced spectrum is `[3/2, 0]` and the code
computes `(e^{-3/2} + e^0)/2` — divided by the spectrum length `2` — which
differs from the claimed `(e^{-3/2} + e^0)/3`. -/
theorem netlsd_C1_counterexample :
    calculate_netlsd (NetLSD.init 0 0 1 50) [0, 3 / 2, 3 / 2] =
      some [(Real.exp (-(3 / 2)) + 1) / 2] ∧
    (Real.exp (-(3 / 2)) + 1) / 2 ≠ (Real.exp (-(3 / 2)) + 1) / 3 := by
  constructor
  · simp [calculate_netlsd, calculate_eigenvalues, eigsh_SM, NetLSD.init,
      calculate_heat_kernel_trace, np_logspace, np_linspace, List.range_succ]
  · have h : (0 : ℝ) < Real.exp (-(3 / 2)) + 1 := by positivity
    intro he
    field_simp at he
    linarith

/-- C1 (amended).  Every heat-kernel-trace entry equals the spectrum sum of
`exp(-t·λ)` divided by the LENGTH of the eigenvalue array the estimator
produced (`eivals.shape[0]`), not by the node count; and on the exact branch
(`2k + 2 ≥ n`) the produced array has `n - 1` entries, so there the division
is by `n - 1`. -/
theorem netlsd_C1 (m : NetLSD) (fullSpectrum eiv tr : List ℝ)
    (hei : calculate_eigenvalues m fullSpectrum = some eiv)
    (htr : calculate_heat_kernel_trace m eiv = some tr)
    (i : ℕ) (hi : i < tr.length) :
    tr.getD i 0 =
      (eiv.map (fun l =>
        Real.exp (-((np_logspace m.scale_min m.scale_max
          m.scale_steps.toNat).getD i 0) * l))).sum / (eiv.length : ℝ) ∧
    (¬ 2 * m.approximations + 2 < (fullSpectrum.length : ℤ) →
      eiv.length = fullSpectrum.length - 1) := by
  constructor
  · unfold calculate_heat_kernel_trace at htr
    by_cases hs : m.scale_steps < 0
    · simp [hs] at htr
    · rw [if_neg hs, Option.some.injEq] at htr
      subst htr
      have hi' : i < (np_logspace m.scale_min m.scale_max
          m.scale_steps.toNat).length := by simpa using hi
      rw [List.getD_eq_getElem _ _ hi, List.getElem_map,
        List.getD_eq_getElem _ _ hi']
  · intro h
    simp only [calculate_eigenvalues] at hei
    rw [if_neg h] at hei
    simp only [eigsh_SM] at hei
    by_cases hc : 0 < (fullSpectrum.length : ℤ) - 1 ∧
        (fullSpectrum.length : ℤ) - 1 < (fullSpectrum.length : ℤ)
    · rw [if_pos hc, Option.some.injEq] at hei
      subst hei
      simp only [List.length_reverse, List.length_take]
      omega
    · rw [if_neg hc] at hei
      exact absurd hei (by simp)

/-- C1 (witness): the amended statement instantiated at the 3-node spectrum
`[0, 3/2, 3/2]` with `scale_steps = 1`, `scale_min = scale_max = 0`. -/
theorem netlsd_C1_witness :
    ([(Real.exp (-(3 / 2)) + 1) / 2] : List ℝ).getD 0 0 =
      (([3 / 2, 0] : List ℝ).map (fun l =>
        Real.exp (-((np_logspace 0 0 (1 : ℤ).toNat).getD 0 0) * l))).sum /
        (([3 / 2, 0] : List ℝ).length : ℝ) ∧
    (¬ 2 * (50 : ℤ) + 2 < (([0, 3 / 2, 3 / 2] : List ℝ).length : ℤ) →
      ([3 / 2, 0] : List ℝ).length = ([0, 3 / 2, 3 / 2] : List ℝ).length - 1) :=
  netlsd_C1 (NetLSD.init 0 0 1 50) [0, 3 / 2, 3 / 2] [3 / 2, 0]
    [(Real.exp (-(3 / 2)) + 1) / 2]
    (by simp [calculate_eigenvalues, eigsh_SM, NetLSD.init])
    (by simp [calculate_heat_kernel_trace, NetLSD.init, np_logspace,
      np_linspace, List.range_succ])
    0 (by simp)

/-- C2 (counterexample).  For the 3-node complete graph (Laplacian spectrum
`[0, 3/2, 3/2]`), `scale_steps = 1`, `scale_min = scale_max = 0`, the code
does NOT compute the claimed `(e^0 + e^{-3/2} + e^{-3/2})/3 ≈ 0.4821`: the
exact branch keeps only the 2 smallest eigenvalues and the trace divides by
2, giving `(e^{-3/2} + 1)/2 ≈ 0.6116`. -/
theorem netlsd_C2_counterexample :
    calculate_netlsd (NetLSD.init 0 0 1 50) [0, 3 / 2, 3 / 2] =
      some [(Real.exp (-(3 / 2)) + 1) / 2] ∧
    (Real.exp (-(3 / 2)) + 1) / 2 ≠
      (Real.exp 0 + Real.exp (-(3 / 2)) + Real.exp (-(3 / 2))) / 3 := by
  constructor
  · simp [calculate_netlsd, calculate_eigenvalues, eigsh_SM, NetLSD.init,
      calculate_heat_kernel_trace, np_logspace, np_linspace, List.range_succ]
  · have h1 : Real.exp (-(3 / 2)) < 1 := by
      have := Real.exp_lt_exp.mpr (show (-(3 / 2) : ℝ) < 0 by norm_num)
      simp only [Real.exp_zero] at this
      exact this
    have h0 : (0 : ℝ) < Real.exp (-(3 / 2)) := Real.exp_pos _
    intro he
    rw [Real.exp_zero] at he
    field_simp at he
    linarith

/-- C2 (amended).  The complete graph on 3 nodes does have normalized
Laplacian eigenvalues `0, 3/2, 3/2` (char. polynomial `x (x - 3/2)²`), and
`n = 3 < 2·50 + 2` selects the exact path; but that path keeps only the
`n - 1 = 2` smallest eigenvalues `[3/2, 0]` and the trace divides by the
spectrum length `2`, so for grid `[1.0]` the computed value is
`(e^{-3/2} + e^0)/2 ≈ 0.6116` (above 1/2), not the claimed
`(e^0 + 2·e^{-3/2})/3 ≈ 0.4821` (below 1/2). -/
theorem netlsd_C2 :
    (∀ x : ℝ, (x • (1 : Matrix (Fin 3) (Fin 3) ℝ) -
        K3_normalized_laplacian).det = x * (x - 3 / 2) ^ 2) ∧
    calculate_eigenvalues (NetLSD.init 0 0 1 50) [0, 3 / 2, 3 / 2] =
      some [3 / 2, 0] ∧
    calculate_netlsd (NetLSD.init 0 0 1 50) [0, 3 / 2, 3 / 2] =
      some [(Real.exp (-(3 / 2)) + 1) / 2] ∧
    1 / 2 < (Real.exp (-(3 / 2)) + 1) / 2 ∧
    (Real.exp 0 + Real.exp (-(3 / 2)) + Real.exp (-(3 / 2))) / 3 < 1 / 2 := by
  refine ⟨K3_charpoly_eval, ?_, ?_, ?_, ?_⟩
  · simp [calculate_eigenvalues, eigsh_SM, NetLSD.init]
  · simp [calculate_netlsd, calculate_eigenvalues, eigsh_SM, NetLSD.init,
      calculate_heat_kernel_trace, np_logspace, np_linspace, List.range_succ]
  · have h0 : (0 : ℝ) < Real.exp (-(3 / 2)) := Real.exp_pos _
    linarith
  · have h := exp_neg_three_halves_lt_quarter
    rw [Real.exp_zero]
    linarith

/-- C3 (counterexample).  The claim says the per-graph pipeline never mutates
the caller's graph.  But netlsd.py line 63 calls
`graph.remove_edges_from(nx.selfloop_edges(graph))` on the caller's object:
for a 1-node graph with the self-loop edge `(0,0)`, the edge set after the
pipeline is empty, differing from the edge set before. -/
theorem netlsd_C3_counterexample :
    (calculate_netlsd_graph_after (NXGraph.mk 1 {(0, 0)})).edges ≠
      (NXGraph.mk 1 {(0, 0)}).edges := by decide

/-- C3 (amended).  The pipeline removes the self-loop edges from the caller's
graph in place: afterwards the edge set is exactly the non-loop edges, so the
caller's edge set is preserved if and only if the graph had no self-loops. -/
theorem netlsd_C3 (g : NXGraph) :
    (calculate_netlsd_graph_after g).edges =
      g.edges.filter (fun e => e.1 ≠ e.2) ∧
    ((calculate_netlsd_graph_after g).edges = g.edges ↔
      ∀ e ∈ g.edges, e.1 ≠ e.2) := by
  have hfe : (calculate_netlsd_graph_after g).edges =
      g.edges.filter (fun e => e.1 ≠ e.2) := by
    ext a
    simp only [calculate_netlsd_graph_after, remove_edges_from, selfloop_edges,
      Finset.mem_sdiff, Finset.mem_filter]
    tauto
  refine ⟨hfe, ?_⟩
  rw [hfe]
  exact Finset.filter_eq_self

/-- C4 (counterexample).  The claim says construction fails for non-positive
`scale_steps` (etc.) before any graph is processed.  But `__init__` stores its
arguments without any validation and cannot fail: constructing with
`scale_steps = -1` succeeds and yields an ordinary estimator object. -/
theorem netlsd_C4_counterexample :
    NetLSD.init (-2) 2 (-1) 50 =
      { scale_min := -2, scale_max := 2, scale_steps := -1,
        approximations := 50, _embedding := none } := rfl

/-- C4 (amended).  Construction never validates: it stores the configuration
exactly as given and always succeeds; an invalid value such as a negative
`scale_steps` only causes a failure later, when `np.logspace` is evaluated
inside the per-graph trace computation during `fit`. -/
theorem netlsd_C4 (a b : ℝ) (c d : ℤ) (eiv : List ℝ) (hc : c < 0) :
    NetLSD.init a b c d =
      { scale_min := a, scale_max := b, scale_steps := c,
        approximations := d, _embedding := none } ∧
    calculate_heat_kernel_trace (NetLSD.init a b c d) eiv = none := by
  refine ⟨rfl, ?_⟩
  simp [calculate_heat_kernel_trace, NetLSD.init, hc]

/-- C4 (witness): constructing with `scale_steps = -1` succeeds, and the very
same configuration makes the trace computation fail at fit time. -/
theorem netlsd_C4_witness :
    NetLSD.init (-2) 2 (-1) 50 =
      { scale_min := -2, scale_max := 2, scale_steps := -1,
        approximations := 50, _embedding := none } ∧
    calculate_heat_kernel_trace (NetLSD.init (-2) 2 (-1) 50) [] = none :=
  netlsd_C4 (-2) 2 (-1) 50 [] (by decide)

/-- C5 (confirmed).  On a freshly constructed estimator the attribute
`self._embedding` does not exist, so `get_embedding` raises `AttributeError`
(an explicit error, modelled as `Except.error`) rather than returning any
matrix — in particular never a silent empty result. -/
theorem netlsd_C5 (a b : ℝ) (c d : ℤ) :
    NetLSD.get_embedding (NetLSD.init a b c d) =
      Except.error
        "AttributeError: NetLSD object has no attribute _embedding" := rfl

lemma np_linspace_length (a b : ℝ) (m : ℕ) : (np_linspace a b m).length = m := by
  simp [np_linspace]

/-- Helper: `np.linspace` starts at its left endpoint. -/
lemma np_linspace_take_one (a b : ℝ) (m : ℕ) (hm : 0 < m) :
    (np_linspace a b m).take 1 = [a] := by
  obtain ⟨m', rfl⟩ : ∃ m', m = m' + 1 := ⟨m - 1, by omega⟩
  rw [List.take_one]
  simp [np_linspace, List.range_succ_eq_map, List.head?_map]

/-- Helper: `np.linspace` ends at its right endpoint (for at least 2 points). -/
lemma np_linspace_drop_last (a b : ℝ) (m : ℕ) (hm : 2 ≤ m) :
    (np_linspace a b m).drop (m - 1) = [b] := by
  have h1 : List.range m = List.range (m - 1) ++ [m - 1] := by
    conv_lhs => rw [show m = (m - 1) + 1 by omega, List.range_succ]
  rw [np_linspace, h1, List.map_append]
  rw [List.drop_append_eq_append_drop]
  have hlen : (List.map (fun i : ℕ => a + (i : ℝ) * (b - a) / ((m : ℝ) - 1))
      (List.range (m - 1))).length = m - 1 := by simp
  rw [List.drop_of_length_le (le_of_eq hlen), hlen]
  simp only [Nat.sub_self, List.drop_zero, List.map_cons, List.map_nil,
    List.nil_append]
  have hc : ((m - 1 : ℕ) : ℝ) = (m : ℝ) - 1 := by
    push_cast [Nat.cast_sub (by omega : 1 ≤ m)]
    ring
  have hne : ((m : ℝ) - 1) ≠ 0 := by
    have : (2 : ℝ) ≤ (m : ℝ) := by exact_mod_cast hm
    intro h; linarith
  rw [hc]
  congr 1
  field_simp

/-- Helper: evaluation of a slice assignment once both slice bounds are
resolved to absolute positions `s' ≤ e'` and the value length matches. -/
lemma np_setSlice_eval (arr vals : List ℝ) (s e : ℤ) (s' e' : ℕ)
    (hs : pyIdx arr.length s = s') (he : pyIdx arr.length e = e')
    (hse : s' ≤ e') (hv : vals.length = e' - s') :
    np_setSlice arr s e vals = some (arr.take s' ++ vals ++ arr.drop e') := by
  simp only [np_setSlice, hs, he]
  rw [if_pos hv, max_eq_right hse]

/-- C6 (counterexample).  The claim says the exact branch returns the `n-1`
smallest eigenvalues in ASCENDING order.  For the matrix with spectrum
`[0, 1, 2]` (`n = 3`, default `k = 50`, so `2k + 2 ≥ n` selects the exact
branch), scipy's `eigsh(..., which="SM", return_eigenvectors=False)` returns
the two smallest eigenvalues sorted by decreasing magnitude, and line 50 does
not reverse them: the result is `[1, 0]`, not the ascending `[0, 1]`. -/
theorem netlsd_C6_counterexample :
    calculate_eigenvalues (NetLSD.init 0 0 1 50) [0, 1, 2] = some [1, 0] ∧
    ([1, 0] : List ℝ) ≠ [0, 1] := by
  refine ⟨by simp [calculate_eigenvalues, eigsh_SM, NetLSD.init], ?_⟩
  intro h
  rw [List.cons.injEq] at h
  exact one_ne_zero h.1

/-- C6 (amended).  `_calculate_eigenvalues` selects the exact branch exactly
when `2k + 2 ≥ n`, and in that branch returns the `n-1` smallest eigenvalues
in DESCENDING order (the reverse of the ascending bottom of the spectrum,
since `eigsh(..., "SM", return_eigenvectors=False)` sorts by decreasing
magnitude and is not reversed on this path); when `2k + 2 < n` (and `k > 0`)
it runs the approximate branch: the two-band interpolation applied to the
`k` smallest eigenvalues (ascending) and the `k` largest (ascending). -/
theorem netlsd_C6 (m : NetLSD) (s : List ℝ) (hn : 2 ≤ s.length) :
    (¬ 2 * m.approximations + 2 < (s.length : ℤ) →
      calculate_eigenvalues m s = some ((s.take (s.length - 1)).reverse)) ∧
    (2 * m.approximations + 2 < (s.length : ℤ) → 0 < m.approximations →
      calculate_eigenvalues m s =
        updown_linear_approx (s.take m.approximations.toNat)
          (s.drop (s.length - m.approximations.toNat)) s.length) := by
  constructor
  · intro h
    simp only [calculate_eigenvalues]
    rw [if_neg h]
    simp only [eigsh_SM]
    rw [if_pos ⟨by omega, by omega⟩,
      show ((s.length : ℤ) - 1).toNat = s.length - 1 by omega]
  · intro h hk
    simp only [calculate_eigenvalues]
    rw [if_pos h]
    simp only [eigsh_SM, eigsh_LM]
    rw [if_pos ⟨by omega, by omega⟩, if_pos ⟨by omega, by omega⟩]
    simp only [Option.some_bind, List.reverse_reverse]

/-- C6 (witness): the amended statement at the spectrum `[0, 1, 2]` with the
default `k = 50`: the exact branch applies and returns `[1, 0]`. -/
theorem netlsd_C6_witness :
    (¬ 2 * (NetLSD.init 0 0 1 50).approximations + 2 <
        (([0, 1, 2] : List ℝ).length : ℤ) →
      calculate_eigenvalues (NetLSD.init 0 0 1 50) [0, 1, 2] =
        some ((([0, 1, 2] : List ℝ).take (([0, 1, 2] : List ℝ).length - 1)).reverse)) ∧
    (2 * (NetLSD.init 0 0 1 50).approximations + 2 <
        (([0, 1, 2] : List ℝ).length : ℤ) →
      0 < (NetLSD.init 0 0 1 50).approximations →
      calculate_eigenvalues (NetLSD.init 0 0 1 50) [0, 1, 2] =
        updown_linear_approx
          (([0, 1, 2] : List ℝ).take (NetLSD.init 0 0 1 50).approximations.toNat)
          (([0, 1, 2] : List ℝ).drop (([0, 1, 2] : List ℝ).length -
            (NetLSD.init 0 0 1 50).approximations.toNat))
          ([0, 1, 2] : List ℝ).length) :=
  netlsd_C6 (NetLSD.init 0 0 1 50) [0, 1, 2] (by simp)

/-- C7 (counterexample).  The claim quantifies over every band length `k`
with `2k + 2 < n`, but for `k = 1` the Python slice `ret[nal-1:-nau+1]`
is `ret[0:0]` — an EMPTY slice (the literal upper bound `-1+1 = 0` means
absolute position 0, not end-of-array) — while the right-hand side
`np.linspace(..., nv-nal-nau+2)` has `nv` elements, so the assignment raises
a broadcast error instead of returning an `n`-length array: with
`lower = [0]`, `upper = [2]`, `nv = 5` the call fails. -/
theorem netlsd_C7_counterexample :
    updown_linear_approx [0] [2] 5 = none := by
  simp only [updown_linear_approx, np_setSlice, pyIdx, np_linspace]
  norm_num

/-- C7 (amended).  For bands of length `k ≥ 2` with `2k + 2 < n`,
`_updown_linear_approx` returns an `n`-length array whose first `k` entries
are the lower band, whose last `k` entries are the upper band, and whose
positions `k-1` through `n-k` (inclusive — overlapping one slot of each
band) hold the `n-2k+2` values linearly spaced from the lower band's last
value to the upper band's first value.  For `k = 1` the call fails (see the
counterexample). -/
theorem netlsd_C7 (lower upper : List ℝ) (k nv : ℕ)
    (hl : lower.length = k) (hu : upper.length = k) (hk : 2 ≤ k)
    (hn : 2 * k + 2 < nv) :
    ∃ ret, updown_linear_approx lower upper nv = some ret ∧
      ret.length = nv ∧
      ret.take k = lower ∧
      ret.drop (nv - k) = upper ∧
      (ret.drop (k - 1)).take (nv - 2 * k + 2) =
        np_linspace (lower.getLastD 0) (upper.headD 0) (nv - 2 * k + 2) := by
  have hlne : lower ≠ [] := List.length_pos.mp (by omega)
  have hune : upper ≠ [] := List.length_pos.mp (by omega)
  have hgl : lower.getLast? = some (lower.getLast hlne) :=
    List.getLast?_eq_getLast lower hlne
  have hh : upper.head? = some (upper.head hune) :=
    List.head?_eq_head hune
  have hgd : lower.getLastD 0 = lower.getLast hlne := by
    rw [List.getLastD_eq_getLast?, hgl]; rfl
  have hhd : upper.headD 0 = upper.head hune := by
    rw [List.headD_eq_head?, hh]; rfl
  simp only [updown_linear_approx, hgl, hh, hl, hu]
  rw [if_neg (by omega : ¬ ((nv : ℤ) - k - k + 2 < 0))]
  set L : List ℝ := np_linspace (lower.getLast hlne) (upper.head hune)
    ((nv : ℤ) - k - k + 2).toNat with hL
  have hLm : ((nv : ℤ) - k - k + 2).toNat = nv - 2 * k + 2 := by omega
  have hLlen : L.length = nv - 2 * k + 2 := by
    rw [hL, np_linspace_length]; omega
  have h1 : np_setSlice (List.replicate nv (0 : ℝ)) 0 (k : ℤ) lower =
      some (lower ++ List.replicate (nv - k) 0) := by
    rw [np_setSlice_eval _ _ _ _ 0 k
      (by simp [pyIdx])
      (by simp only [List.length_replicate]
          rw [pyIdx, if_neg (by omega)]
          simp only [Int.toNat_natCast]; omega)
      (by omega) (by omega)]
    simp
  have hlen2 : (lower ++ List.replicate (nv - k) (0 : ℝ)).length = nv := by
    simp only [List.length_append, List.length_replicate, hl]; omega
  have h2 : np_setSlice (lower ++ List.replicate (nv - k) (0 : ℝ)) (-(k : ℤ))
      (nv : ℤ) upper =
      some (lower ++ List.replicate (nv - 2 * k) 0 ++ upper) := by
    rw [np_setSlice_eval _ _ _ _ (nv - k) nv
      (by rw [hlen2, pyIdx, if_pos (by omega)]; omega)
      (by rw [hlen2, pyIdx, if_neg (by omega)]
          simp only [Int.toNat_natCast]; omega)
      (by omega) (by omega)]
    rw [List.drop_of_length_le (le_of_eq hlen2), List.append_nil]
    rw [List.take_append_eq_append_take, List.take_of_length_le (by omega),
      hl, List.take_replicate]
    rw [show min (nv - k - k) (nv - k) = nv - 2 * k by omega]
  have hlen3 : (lower ++ List.replicate (nv - 2 * k) (0 : ℝ) ++ upper).length
      = nv := by
    simp only [List.length_append, List.length_replicate, hl, hu]; omega
  have h3 : np_setSlice (lower ++ List.replicate (nv - 2 * k) (0 : ℝ) ++ upper)
      ((k : ℤ) - 1) (-(k : ℤ) + 1) L =
      some (lower.take (k - 1) ++ L ++ upper.drop 1) := by
    rw [np_setSlice_eval _ _ _ _ (k - 1) (nv - k + 1)
      (by rw [hlen3, pyIdx, if_neg (by omega)]; omega)
      (by rw [hlen3, pyIdx, if_pos (by omega)]; omega)
      (by omega) (by rw [hLlen]; omega)]
    congr 1
    congr 1
    · rw [List.append_assoc, List.take_append_eq_append_take, hl]
      rw [show k - 1 - k = 0 by omega, List.take_zero, List.append_nil]
    · rw [List.append_assoc, List.drop_append_eq_append_drop, hl]
      rw [List.drop_of_length_le (by omega)]
      rw [List.drop_append_eq_append_drop]
      rw [List.drop_of_length_le (by simp only [List.length_replicate]; omega),
        List.length_replicate]
      rw [List.nil_append, List.nil_append]
      rw [show nv - k + 1 - k - (nv - 2 * k) = 1 by omega]
  rw [h1, Option.some_bind, h2, Option.some_bind, h3]
  have hAlen : (lower.take (k - 1)).length = k - 1 := by
    rw [List.length_take]; omega
  refine ⟨_, rfl, ?_, ?_, ?_, ?_⟩
  · simp only [List.length_append, List.length_take, List.length_drop,
      hLlen, hl, hu]
    omega
  · rw [List.take_append_eq_append_take, List.take_append_eq_append_take]
    rw [List.take_of_length_le (by rw [hAlen]; omega), hAlen]
    rw [show k - (k - 1) = 1 by omega]
    rw [hL, np_linspace_take_one _ _ _ (by omega)]
    rw [List.length_append, hAlen, hLlen]
    rw [show k - (k - 1 + (nv - 2 * k + 2)) = 0 by omega, List.take_zero,
      List.append_nil]
    rw [show k - 1 = lower.length - 1 by omega, ← List.dropLast_eq_take]
    exact List.dropLast_append_getLast hlne
  · rw [List.drop_append_eq_append_drop, List.drop_append_eq_append_drop]
    rw [List.drop_of_length_le (by rw [hAlen]; omega), hAlen]
    rw [hL, show nv - k - (k - 1) = ((nv : ℤ) - k - k + 2).toNat - 1 by omega]
    rw [np_linspace_drop_last _ _ _ (by omega)]
    rw [List.length_append, hAlen, hLlen]
    rw [show nv - k - (k - 1 + (nv - 2 * k + 2)) = 0 by omega, List.drop_zero]
    rw [List.nil_append, List.singleton_append, List.drop_one]
    rw [List.head_cons_tail]
  · rw [List.append_assoc, List.drop_append_eq_append_drop]
    rw [List.drop_of_length_le (le_of_eq hAlen), hAlen]
    rw [show k - 1 - (k - 1) = 0 by omega, List.drop_zero, List.nil_append]
    rw [List.take_append_eq_append_take, List.take_of_length_le (by rw [hLlen]),
      hLlen]
    rw [Nat.sub_self, List.take_zero, List.append_nil, hgd, hhd, hL, hLm]

/-- C7 (witness): the amended statement at `lower = [0, 1]`, `upper = [2, 3]`,
`k = 2`, `nv = 7`. -/
theorem netlsd_C7_witness :
    ∃ ret, updown_linear_approx [0, 1] [2, 3] 7 = some ret ∧
      ret.length = 7 ∧
      ret.take 2 = [0, 1] ∧
      ret.drop (7 - 2) = [2, 3] ∧
      (ret.drop (2 - 1)).take (7 - 2 * 2 + 2) =
        np_linspace (([0, 1] : List ℝ).getLastD 0)
          (([2, 3] : List ℝ).headD 0) (7 - 2 * 2 + 2) :=
  netlsd_C7 [0, 1] [2, 3] 2 7 (by simp) (by simp) (by omega) (by omega)

lemma np_logspace_length (a b : ℝ) (m : ℕ) : (np_logspace a b m).length = m := by
  simp [np_logspace, np_linspace]

/-- Helper: closed form of a `np.logspace` grid entry. -/
lemma np_logspace_getD (a b : ℝ) (m i : ℕ) (hi : i < m) :
    (np_logspace a b m).getD i 0 =
      (10 : ℝ) ^ (a + (i : ℝ) * (b - a) / ((m : ℝ) - 1)) := by
  rw [List.getD_eq_getElem _ _ (by rw [np_logspace_length]; omega)]
  simp [np_logspace, np_linspace]

/-- Helper: every time scale in the grid is strictly positive. -/
lemma np_logspace_getD_pos (a b : ℝ) (m i : ℕ) (hi : i < m) :
    0 < (np_logspace a b m).getD i 0 := by
  rw [np_logspace_getD a b m i hi]
  exact Real.rpow_pos_of_pos (by norm_num) _

/-- Helper: for `a ≤ b` the grid is non-decreasing in the index. -/
lemma np_logspace_getD_mono (a b : ℝ) (hab : a ≤ b) (m i j : ℕ)
    (hij : i ≤ j) (hj : j < m) :
    (np_logspace a b m).getD i 0 ≤ (np_logspace a b m).getD j 0 := by
  rw [np_logspace_getD a b m i (by omega), np_logspace_getD a b m j hj]
  apply Real.rpow_le_rpow_of_exponent_le (by norm_num)
  have hm1 : (1 : ℝ) ≤ (m : ℝ) := by exact_mod_cast (by omega : 1 ≤ m)
  have hnum : (i : ℝ) * (b - a) ≤ (j : ℝ) * (b - a) :=
    mul_le_mul_of_nonneg_right (by exact_mod_cast hij) (by linarith)
  have := div_le_div_of_nonneg_right hnum (by linarith : (0 : ℝ) ≤ (m : ℝ) - 1)
  linarith

/-- Helper: one trace entry is antitone in the time scale, for a non-negative
spectrum. -/
lemma heat_entry_anti (eivals : List ℝ) (h0 : ∀ x ∈ eivals, 0 ≤ x)
    (t1 t2 : ℝ) (h12 : t1 ≤ t2) :
    (eivals.map (fun l => Real.exp (-t2 * l))).sum / (eivals.length : ℝ) ≤
      (eivals.map (fun l => Real.exp (-t1 * l))).sum / (eivals.length : ℝ) := by
  have hsum : (eivals.map (fun l => Real.exp (-t2 * l))).sum ≤
      (eivals.map (fun l => Real.exp (-t1 * l))).sum := by
    apply List.sum_le_sum
    intro l hl
    apply Real.exp_le_exp.mpr
    have := h0 l hl
    nlinarith
  exact div_le_div_of_nonneg_right hsum (Nat.cast_nonneg _)

/-- C8 (confirmed).  For a spectrum of non-negative eigenvalues the heat
kernel trace vector is non-increasing along the time-scale index, whenever
the grid is ascending (`scale_min ≤ scale_max`): each summand
`exp(-t·λ)` is non-increasing in `t`. -/
theorem netlsd_C8 (m : NetLSD) (eivals tr : List ℝ)
    (h0 : ∀ x ∈ eivals, 0 ≤ x) (hab : m.scale_min ≤ m.scale_max)
    (htr : calculate_heat_kernel_trace m eivals = some tr)
    (i j : ℕ) (hij : i ≤ j) (hj : j < tr.length) :
    tr.getD j 0 ≤ tr.getD i 0 := by
  unfold calculate_heat_kernel_trace at htr
  by_cases hs : m.scale_steps < 0
  · simp [hs] at htr
  · rw [if_neg hs, Option.some.injEq] at htr
    subst htr
    have hj' : j < m.scale_steps.toNat := by
      rw [List.length_map, np_logspace_length] at hj; exact hj
    rw [List.getD_eq_getElem _ _ hj,
      List.getD_eq_getElem _ _ (lt_of_le_of_lt hij hj)]
    rw [List.getElem_map, List.getElem_map]
    have hbi : i < (np_logspace m.scale_min m.scale_max
        m.scale_steps.toNat).length := by
      rw [np_logspace_length]; omega
    have hbj : j < (np_logspace m.scale_min m.scale_max
        m.scale_steps.toNat).length := by
      rw [np_logspace_length]; omega
    have hgi := (List.getD_eq_getElem (np_logspace m.scale_min m.scale_max
        m.scale_steps.toNat) 0 hbi).symm
    have hgj := (List.getD_eq_getElem (np_logspace m.scale_min m.scale_max
        m.scale_steps.toNat) 0 hbj).symm
    rw [hgi, hgj]
    exact heat_entry_anti eivals h0 _ _
      (np_logspace_getD_mono _ _ hab _ _ _ hij hj')

/-- C8 (witness): the trace of the one-eigenvalue spectrum `[0]` on the
two-point grid of `scale_min = 0 ≤ scale_max = 1` is `[1, 1]`, and entry 1
is at most entry 0. -/
theorem netlsd_C8_witness :
    ([1, 1] : List ℝ).getD 1 0 ≤ ([1, 1] : List ℝ).getD 0 0 :=
  netlsd_C8 (NetLSD.init 0 1 2 50) [0] [1, 1] (by simp)
    (by norm_num [NetLSD.init])
    (by simp [calculate_heat_kernel_trace, NetLSD.init, np_logspace,
      np_linspace, List.range_succ])
    0 1 (by omega) (by simp)

/-- Helper: an `Option`-valued `mapM` that succeeds preserves length, and
every output element is the image of some input element. -/
lemma mapM_option_spec {α β : Type} (f : α → Option β) :
    ∀ (l : List α) (l' : List β), l.mapM f = some l' →
      l'.length = l.length ∧ ∀ y ∈ l', ∃ x ∈ l, f x = some y := by
  intro l
  induction l with
  | nil =>
    intro l' h
    rw [List.mapM_nil] at h
    cases h
    exact ⟨rfl, fun y hy => absurd hy (List.not_mem_nil y)⟩
  | cons x xs ih =>
    intro l' h
    rw [List.mapM_cons] at h
    cases hfx : f x with
    | none => rw [hfx] at h; simp at h
    | some y =>
      rw [hfx] at h
      simp only [Option.bind_eq_bind, Option.some_bind] at h
      cases hxs : xs.mapM f with
      | none => rw [hxs] at h; simp at h
      | some ys =>
        rw [hxs] at h
        simp only [Option.bind_eq_bind, Option.some_bind, Option.pure_def] at h
        cases h
        obtain ⟨hlen, hmem⟩ := ih ys hxs
        constructor
        · simp [hlen]
        · intro z hz
          rcases List.mem_cons.mp hz with rfl | hz'
          · exact ⟨x, List.mem_cons_self x xs, hfx⟩
          · obtain ⟨w, hw, hfw⟩ := hmem z hz'
            exact ⟨w, List.mem_cons_of_mem x hw, hfw⟩

/-- Helper: a successful per-graph pipeline run implies `scale_steps ≥ 0` and
an output row of length exactly `scale_steps`, whatever the spectrum was. -/
lemma calculate_netlsd_length (m : NetLSD) (spec row : List ℝ)
    (h : calculate_netlsd m spec = some row) :
    0 ≤ m.scale_steps ∧ (row.length : ℤ) = m.scale_steps := by
  unfold calculate_netlsd at h
  cases he : calculate_eigenvalues m spec with
  | none => rw [he] at h; simp at h
  | some eiv =>
    rw [he] at h
    simp only [Option.some_bind] at h
    unfold calculate_heat_kernel_trace at h
    by_cases hs : m.scale_steps < 0
    · simp [hs] at h
    · rw [if_neg hs, Option.some.injEq] at h
      subst h
      refine ⟨by omega, ?_⟩
      rw [List.length_map, np_logspace_length]
      omega

/-- C9 (confirmed).  After a successful `fit` on any sequence of graphs,
`get_embedding` returns a matrix with one row per input graph, and every row
has length exactly `scale_steps`, independent of each graph's size. -/
theorem netlsd_C9 (m : NetLSD) (graphSpectra : List (List ℝ)) (st : NetLSD)
    (hfit : NetLSD.fit m graphSpectra = some st) :
    ∃ rows, NetLSD.get_embedding st = Except.ok rows ∧
      rows.length = graphSpectra.length ∧
      ∀ row ∈ rows, (row.length : ℤ) = m.scale_steps := by
  unfold NetLSD.fit at hfit
  cases hm : graphSpectra.mapM (calculate_netlsd m) with
  | none => rw [hm] at hfit; simp at hfit
  | some embs =>
    rw [hm] at hfit
    simp only [Option.map_some'] at hfit
    cases hfit
    refine ⟨embs, rfl, (mapM_option_spec _ _ _ hm).1, ?_⟩
    intro row hrow
    obtain ⟨spec, _, hspec⟩ := (mapM_option_spec _ _ _ hm).2 row hrow
    exact (calculate_netlsd_length m spec row hspec).2

/-- C9 (witness): fitting one 3-node graph spectrum with `scale_steps = 0`
succeeds and yields one row of length `0 = scale_steps`. -/
theorem netlsd_C9_witness :
    ∃ rows, NetLSD.get_embedding
        { scale_min := -2, scale_max := 2, scale_steps := 0,
          approximations := 50, _embedding := some [[]] } = Except.ok rows ∧
      rows.length = ([[0, 3 / 2, 3 / 2]] : List (List ℝ)).length ∧
      ∀ row ∈ rows, (row.length : ℤ) = (0 : ℤ) :=
  netlsd_C9 (NetLSD.init (-2) 2 0 50) [[0, 3 / 2, 3 / 2]]
    { scale_min := -2, scale_max := 2, scale_steps := 0,
      approximations := 50, _embedding := some [[]] }
    rfl

/-- C10 (confirmed).  For a non-empty spectrum of non-negative eigenvalues,
every heat-kernel-trace entry lies in `(0, 1]`: each time scale `t = 10^x` is
positive, each summand `exp(-t·λ)` is in `(0, 1]`, and the sum is divided by
the number of summands. -/
theorem netlsd_C10 (m : NetLSD) (eivals tr : List ℝ)
    (hne : eivals ≠ []) (h0 : ∀ x ∈ eivals, 0 ≤ x)
    (htr : calculate_heat_kernel_trace m eivals = some tr)
    (i : ℕ) (hi : i < tr.length) :
    0 < tr.getD i 0 ∧ tr.getD i 0 ≤ 1 := by
  unfold calculate_heat_kernel_trace at htr
  by_cases hs : m.scale_steps < 0
  · simp [hs] at htr
  · rw [if_neg hs, Option.some.injEq] at htr
    subst htr
    have hi' : i < m.scale_steps.toNat := by
      rw [List.length_map, np_logspace_length] at hi; exact hi
    have hb : i < (np_logspace m.scale_min m.scale_max
        m.scale_steps.toNat).length := by
      rw [np_logspace_length]; omega
    rw [List.getD_eq_getElem _ _ hi, List.getElem_map]
    have ht : 0 < (np_logspace m.scale_min m.scale_max
        m.scale_steps.toNat)[i] := by
      have := np_logspace_getD_pos m.scale_min m.scale_max
        m.scale_steps.toNat i hi'
      rwa [List.getD_eq_getElem _ _ hb] at this
    have hlenpos : (0 : ℝ) < (eivals.length : ℝ) := by
      have : 0 < eivals.length := List.length_pos.mpr hne
      exact_mod_cast this
    constructor
    · apply div_pos ?_ hlenpos
      apply List.sum_pos
      · intro x hx
        obtain ⟨l, _, rfl⟩ := List.mem_map.mp hx
        exact Real.exp_pos _
      · simp [hne]
    · rw [div_le_one hlenpos]
      have hb1 : ∀ x ∈ eivals.map (fun l => Real.exp
          (-(np_logspace m.scale_min m.scale_max m.scale_steps.toNat)[i] * l)),
          x ≤ 1 := by
        intro x hx
        obtain ⟨l, hl, rfl⟩ := List.mem_map.mp hx
        have hll := h0 l hl
        have := Real.exp_le_exp.mpr (show
          -(np_logspace m.scale_min m.scale_max m.scale_steps.toNat)[i] * l
            ≤ 0 by nlinarith)
        rwa [Real.exp_zero] at this
      have := List.sum_le_card_nsmul _ 1 hb1
      simpa using this

/-- C10 (witness): for the spectrum `[0]` with a one-point grid, the single
trace entry is `1`, which is in `(0, 1]`. -/
theorem netlsd_C10_witness :
    0 < ([1] : List ℝ).getD 0 0 ∧ ([1] : List ℝ).getD 0 0 ≤ 1 :=
  netlsd_C10 (NetLSD.init 0 0 1 50) [0] [1] (by simp) (by simp)
    (by simp [calculate_heat_kernel_trace, NetLSD.init, np_logspace,
      np_linspace, List.range_succ])
    0 (by simp)

end KarateClub
